import Mathlib

/-!
Verification of the cortex-memory file-relationship graph core.

The definitions below are a shallow embedding of `cortex_memory/graph.py`,
`cortex_memory/impact.py` and `cortex_memory/patterns.py`:

* `GraphDB` models the SQLite database (`files` and `edges` tables) of
  `FileGraph`; `add_file`, `add_edge`, `get_related_files`,
  `get_dependencies`, `get_dependents` and
  `get_frequently_changed_together` model the corresponding methods.
  SQL `ORDER BY weight DESC` is determinised with a stable insertion sort;
  the timestamp `datetime.now()` is passed in explicitly as a `now` argument.
* `analyze_file`, `_get_transitive_dependents`, `get_blast_radius` and
  `compare_impact_f` model `ImpactAnalyzer`; the possibility that a per-path
  analysis raises is embedded as an `Except`-valued analysis function.
* `detect_modules` models `PatternDetector.detect_modules`; Python's
  `str.split` / `str.strip` are translated as `splitChar` / `strip` over the
  character list of a string, and the float `activity` is modelled in `ℚ`.
-/

/-- Translation of Python `str.split(sep)` for a one-character separator:
auxiliary worker over the character list. -/
def splitCharAux (sep : Char) : List Char → List Char → List (List Char)
  | [], acc => [acc.reverse]
  | c :: cs, acc =>
    if c = sep then acc.reverse :: splitCharAux sep cs []
    else splitCharAux sep cs (c :: acc)

/-- Translation of Python `str.split(sep)` for a one-character separator. -/
def splitChar (sep : Char) (s : String) : List String :=
  (splitCharAux sep s.data []).map String.mk

/-- Translation of Python `str.strip()`: drop whitespace from both ends. -/
def strip (s : String) : String :=
  String.mk (((s.data.dropWhile Char.isWhitespace).reverse.dropWhile
    Char.isWhitespace).reverse)

/-- One row of the `files` table of `FileGraph._init_db`. -/
structure FileRow where
  id : Nat
  path : String
  type : Option String
  lastSeen : String
deriving DecidableEq

/-- One row of the `edges` table of `FileGraph._init_db`. -/
structure EdgeRow where
  fromId : Nat
  toId : Nat
  relationship : String
  weight : Int
  metadata : Option String
  createdAt : String
deriving DecidableEq

/-- The SQLite database state behind a `FileGraph`: the two tables plus the
next AUTOINCREMENT id for `files`. -/
structure GraphDB where
  files : List FileRow
  edges : List EdgeRow
  nextId : Nat
deriving DecidableEq

/-- A freshly initialised database (`FileGraph._init_db`): both tables empty,
AUTOINCREMENT starting at 1. -/
def emptyDB : GraphDB := ⟨[], [], 1⟩

/-- Lookup `SELECT * FROM files WHERE path = ?` (paths are UNIQUE, so the first
match is the row). -/
def findFile (db : GraphDB) (filepath : String) : Option FileRow :=
  db.files.find? (fun f => f.path == filepath)

/-- Lookup `SELECT * FROM files WHERE id = ?`. -/
def findFileById (db : GraphDB) (fid : Nat) : Option FileRow :=
  db.files.find? (fun f => f.id == fid)

/-- Model of `FileGraph.add_file`: `INSERT INTO files ... ON CONFLICT(path) DO UPDATE
SET last_seen = ?, type = COALESCE(?, type)`, then `SELECT id` for the
returned id (`-1` if absent, which cannot happen after the upsert; we model
the id column as `Nat` and return the looked-up id, defaulting to 0). -/
def add_file (db : GraphDB) (filepath : String) (file_type : Option String)
    (now : String) : GraphDB × Nat :=
  let db' :=
    match findFile db filepath with
    | some _ =>
      { db with files := db.files.map (fun f =>
          if f.path == filepath then
            { f with lastSeen := now, type := file_type <|> f.type }
          else f) }
    | none =>
      { db with files := db.files ++ [⟨db.nextId, filepath, file_type, now⟩],
                nextId := db.nextId + 1 }
  (db', ((findFile db' filepath).map (·.id)).getD 0)

/-- The conflict target `(from_file_id, to_file_id, relationship)` of the
`edges` table. -/
def edgeKeyMatches (e : EdgeRow) (fromId toId : Nat) (rel : String) : Bool :=
  e.fromId == fromId && e.toId == toId && e.relationship == rel

/-- Model of `FileGraph.add_edge`: upsert both endpoint files (with `file_type =
None`), then `INSERT INTO edges ... ON CONFLICT(from_file_id, to_file_id,
relationship) DO UPDATE SET weight = weight + ?, metadata =
COALESCE(?, metadata)`; `created_at` is only written by the INSERT arm. -/
def add_edge (db : GraphDB) (from_file to_file rel : String)
    (weight : Int := 1) (metadata : Option String := none)
    (now : String := "") : GraphDB :=
  let p1 := add_file db from_file none now
  let p2 := add_file p1.1 to_file none now
  let db2 := p2.1
  if (db2.edges.find? (fun e => edgeKeyMatches e p1.2 p2.2 rel)).isSome then
    { db2 with edges := db2.edges.map (fun e =>
        if edgeKeyMatches e p1.2 p2.2 rel then
          { e with weight := e.weight + weight,
                   metadata := metadata <|> e.metadata }
        else e) }
  else
    { db2 with edges := db2.edges ++ [⟨p1.2, p2.2, rel, weight, metadata, now⟩] }

/-- One result row of `FileGraph.get_related_files`. -/
structure RelatedRow where
  path : String
  relationship : String
  weight : Int
  metadata : Option String
deriving DecidableEq

/-- Edge ordering used by the `ORDER BY weight DESC` clauses. -/
def edgeWeightGE (e1 e2 : EdgeRow) : Prop := e2.weight ≤ e1.weight

instance : DecidableRel edgeWeightGE := fun e1 e2 => by
  unfold edgeWeightGE; infer_instance

instance : IsTotal EdgeRow edgeWeightGE :=
  ⟨fun a b => (le_total a.weight b.weight).symm⟩

instance : IsTrans EdgeRow edgeWeightGE :=
  ⟨fun _ _ _ h1 h2 => le_trans h2 h1⟩

/-- Row ordering used by the `ORDER BY weight DESC` clause of
`get_related_files` (applied after the join). -/
def rowWeightGE (r1 r2 : RelatedRow) : Prop := r2.weight ≤ r1.weight

instance : DecidableRel rowWeightGE := fun r1 r2 => by
  unfold rowWeightGE; infer_instance

instance : IsTotal RelatedRow rowWeightGE :=
  ⟨fun a b => (le_total a.weight b.weight).symm⟩

instance : IsTrans RelatedRow rowWeightGE :=
  ⟨fun _ _ _ h1 h2 => le_trans h2 h1⟩

/-- The join of `get_related_files`: for an edge `e` incident to `file_id`,
the joined `files` row `f` is the one with `(e.from = file_id ∧ f.id = e.to)
∨ (e.to = file_id ∧ f.id = e.from)`. -/
def relatedRowOfEdge (db : GraphDB) (fileId : Nat) (e : EdgeRow) :
    Option RelatedRow :=
  if e.fromId == fileId then
    (findFileById db e.toId).map
      (fun g => ⟨g.path, e.relationship, e.weight, e.metadata⟩)
  else if e.toId == fileId then
    (findFileById db e.fromId).map
      (fun g => ⟨g.path, e.relationship, e.weight, e.metadata⟩)
  else none

/-- The joined row set of `FileGraph.get_related_files`: edges incident to
the file (both directions), optionally restricted to one relationship. -/
def relatedRows (db : GraphDB) (fileId : Nat)
    (relationship : Option String) : List RelatedRow :=
  db.edges.filterMap (fun e =>
    match relationship with
    | some rel => if e.relationship == rel then relatedRowOfEdge db fileId e else none
    | none => relatedRowOfEdge db fileId e)

/-- Model of `FileGraph.get_related_files`: unknown path yields `[]`; otherwise the
joined rows, `ORDER BY weight DESC`, `LIMIT limit`. -/
def get_related_files (db : GraphDB) (filepath : String)
    (relationship : Option String := none) (limit : Nat := 20) :
    List RelatedRow :=
  match findFile db filepath with
  | none => []
  | some f => ((relatedRows db f.id relationship).insertionSort rowWeightGE).take limit

/-- Model of `FileGraph.get_dependencies`: `get_related_files` filtered to
`imports`, projected to paths. -/
def get_dependencies (db : GraphDB) (filepath : String) : List String :=
  (get_related_files db filepath (some "imports")).map (·.path)

/-- The edge rows of `FileGraph.get_dependents`: `imports` edges with
`to_file_id = id(filepath)`, `ORDER BY weight DESC` (`[]` for an unknown
path). -/
def dependentEdges (db : GraphDB) (filepath : String) : List EdgeRow :=
  match findFile db filepath with
  | none => []
  | some f =>
    (db.edges.filter (fun e =>
        e.toId == f.id && e.relationship == "imports")).insertionSort edgeWeightGE

/-- Model of `FileGraph.get_dependents`: the matching edges projected to the `from`
file's path via the join with `files`. -/
def get_dependents (db : GraphDB) (filepath : String) : List String :=
  (dependentEdges db filepath).filterMap
    (fun e => (findFileById db e.fromId).map (·.path))

/-- Model of `FileGraph.get_frequently_changed_together`. -/
def get_frequently_changed_together (db : GraphDB) (filepath : String)
    (limit : Nat := 10) : List RelatedRow :=
  get_related_files db filepath (some "co_changes") limit

/-- The paths present in the `files` table. -/
def filePaths (db : GraphDB) : List String := db.files.map FileRow.path

lemma findFile_eq_none_of_not_mem {db : GraphDB} {p : String}
    (h : p ∉ filePaths db) : findFile db p = none := by
  rw [findFile, List.find?_eq_none]
  intro f hf hp
  exact h (List.mem_map.mpr ⟨f, hf, by simpa using hp⟩)

lemma get_dependents_of_not_mem {db : GraphDB} {p : String}
    (h : p ∉ filePaths db) : get_dependents db p = [] := by
  rw [get_dependents, dependentEdges, findFile_eq_none_of_not_mem h]
  rfl

lemma sdiff_card_lt_of_visit {db : GraphDB} {visited : Finset String}
    {current : String} (hmem : current ∈ filePaths db)
    (hnv : current ∉ visited) :
    ((filePaths db).toFinset \ insert current visited).card <
      ((filePaths db).toFinset \ visited).card := by
  apply Finset.card_lt_card
  constructor
  · intro x hx
    rw [Finset.mem_sdiff] at hx ⊢
    exact ⟨hx.1, fun hv => hx.2 (Finset.mem_insert_of_mem hv)⟩
  · intro hsub
    have h1 : current ∈ (filePaths db).toFinset \ visited :=
      Finset.mem_sdiff.mpr ⟨List.mem_toFinset.mpr hmem, hnv⟩
    have h2 := hsub h1
    rw [Finset.mem_sdiff] at h2
    exact h2.2 (Finset.mem_insert_self _ _)

lemma sdiff_insert_of_not_mem {db : GraphDB} {visited : Finset String}
    {current : String} (hmem : current ∉ filePaths db) :
    (filePaths db).toFinset \ insert current visited =
      (filePaths db).toFinset \ visited := by
  ext x
  simp only [Finset.mem_sdiff, Finset.mem_insert, List.mem_toFinset]
  constructor
  · rintro ⟨hx, hni⟩
    exact ⟨hx, fun hv => hni (Or.inr hv)⟩
  · rintro ⟨hx, hni⟩
    refine ⟨hx, fun hv => ?_⟩
    rcases hv with rfl | hv
    · exact hmem hx
    · exact hni hv

/-- The BFS loop of `ImpactAnalyzer._get_transitive_dependents`: pop the
front entry; discard it when `depth >= max_depth` or the node was already
visited; otherwise mark it visited and enqueue its not-yet-visited
dependents at `depth + 1`. -/
def transAux (db : GraphDB) (max_depth : Nat) :
    List (String × Nat) → Finset String → Finset String
  | [], visited => visited
  | (current, depth) :: rest, visited =>
    if depth ≥ max_depth then transAux db max_depth rest visited
    else if current ∈ visited then transAux db max_depth rest visited
    else
      let visited' := insert current visited
      transAux db max_depth
        (rest ++ ((get_dependents db current).filter
          (fun d => d ∉ visited')).map (fun d => (d, depth + 1))) visited'
  termination_by queue visited =>
    (((filePaths db).toFinset \ visited).card, queue.length)
  decreasing_by
    · exact Prod.Lex.right _ (by simp)
    · exact Prod.Lex.right _ (by simp)
    · rename_i _hdep hvis
      by_cases hmem : current ∈ filePaths db
      · exact Prod.Lex.left _ _ (sdiff_card_lt_of_visit hmem hvis)
      · rw [sdiff_insert_of_not_mem hmem, get_dependents_of_not_mem hmem]
        exact Prod.Lex.right _ (by simp)

/-- Model of `ImpactAnalyzer._get_transitive_dependents`: run the BFS from
`(filepath, 0)` with an empty visited set, then discard the starting file
from the result. -/
def _get_transitive_dependents (db : GraphDB) (filepath : String)
    (max_depth : Nat) : Finset String :=
  (transAux db max_depth [(filepath, 0)] ∅).erase filepath

/-- Python `layers[depth].append(current)`, with `layers` a dict modelled as
an insertion-ordered association list; a missing key is created first. -/
def addToLayer (layers : List (Nat × List String)) (depth : Nat)
    (current : String) : List (Nat × List String) :=
  if layers.any (fun kv => kv.1 == depth) then
    layers.map (fun kv => if kv.1 == depth then (kv.1, kv.2 ++ [current]) else kv)
  else layers ++ [(depth, [current])]

/-- The BFS loop of `ImpactAnalyzer.get_blast_radius`: identical queue and
visited discipline except that an entry is discarded only when
`depth > max_depth`, and each newly visited node with `depth > 0` is
appended to `layers[depth]`. -/
def blastAux (db : GraphDB) (max_depth : Nat) :
    List (String × Nat) → Finset String → List (Nat × List String) →
      List (Nat × List String)
  | [], _, layers => layers
  | (current, depth) :: rest, visited, layers =>
    if depth > max_depth then blastAux db max_depth rest visited layers
    else if current ∈ visited then blastAux db max_depth rest visited layers
    else
      let visited' := insert current visited
      let layers' := if depth > 0 then addToLayer layers depth current else layers
      blastAux db max_depth
        (rest ++ ((get_dependents db current).filter
          (fun d => d ∉ visited')).map (fun d => (d, depth + 1))) visited' layers'
  termination_by queue visited _ =>
    (((filePaths db).toFinset \ visited).card, queue.length)
  decreasing_by
    · exact Prod.Lex.right _ (by simp)
    · exact Prod.Lex.right _ (by simp)
    · rename_i _hdep hvis
      by_cases hmem : current ∈ filePaths db
      · exact Prod.Lex.left _ _ (sdiff_card_lt_of_visit hmem hvis)
      · rw [sdiff_insert_of_not_mem hmem, get_dependents_of_not_mem hmem]
        exact Prod.Lex.right _ (by simp)

/-- The report of `ImpactAnalyzer.get_blast_radius`. The Python `layers`
dict (int key, insertion-ordered) is the association list built by
`addToLayer`. -/
structure BlastRadius where
  file : String
  max_depth : Nat
  total_affected : Nat
  layers : List (Nat × List String)
deriving DecidableEq

/-- Model of `ImpactAnalyzer.get_blast_radius`. -/
def get_blast_radius (db : GraphDB) (filepath : String)
    (max_depth : Nat := 3) : BlastRadius :=
  let layers := blastAux db max_depth [(filepath, 0)] ∅ []
  ⟨filepath, max_depth, (layers.map (fun kv => kv.2.length)).sum, layers⟩

/-- The `affected_files` sub-dict of an `ImpactAnalyzer.analyze_file`
report. Python's `list(transitive - set(direct))` enumerates a set in
unspecified order, so the reported transitive collection is modelled as a
`Finset`. -/
structure AffectedFiles where
  direct : List String
  transitive : Finset String
  co_changed : List String
deriving DecidableEq

/-- An `ImpactAnalyzer.analyze_file` report. -/
structure ImpactReport where
  file : String
  impact_level : String
  impact_score : Nat
  direct_dependents : Nat
  transitive_dependents : Nat
  co_changed_files : Nat
  affected_files : AffectedFiles
deriving DecidableEq

/-- Model of `ImpactAnalyzer.analyze_file`. -/
def analyze_file (db : GraphDB) (filepath : String) (max_depth : Nat := 3) :
    ImpactReport :=
  let direct := get_dependents db filepath
  let transitive := _get_transitive_dependents db filepath max_depth
  let co_changed := get_frequently_changed_together db filepath 10
  let impact_score := direct.length * 10 + transitive.card * 3 + co_changed.length
  let impact_level :=
    if impact_score > 50 then "high"
    else if impact_score > 20 then "medium"
    else "low"
  ⟨filepath, impact_level, impact_score, direct.length, transitive.card,
    co_changed.length,
    ⟨direct, transitive \ direct.toFinset, co_changed.map (·.path)⟩⟩

/-- Report ordering of `compare_impact`: `results.sort(key=lambda x:
x["impact_score"], reverse=True)`, a stable descending sort. -/
def reportScoreGE (r1 r2 : ImpactReport) : Prop :=
  r2.impact_score ≤ r1.impact_score

instance : DecidableRel reportScoreGE := fun r1 r2 => by
  unfold reportScoreGE; infer_instance

instance : IsTotal ImpactReport reportScoreGE :=
  ⟨fun a b => (le_total a.impact_score b.impact_score).symm⟩

instance : IsTrans ImpactReport reportScoreGE :=
  ⟨fun _ _ _ h1 h2 => le_trans h2 h1⟩

/-- Model of `ImpactAnalyzer.compare_impact`, with the per-path `analyze_file` call
abstracted as an `Except`-valued function (`Except.error` embeds a raised
exception): failing paths are skipped, the successes are kept in input
order, and the result is stably sorted by score descending. -/
def compare_impact_f (analyze : String → Except String ImpactReport)
    (files : List String) : List ImpactReport :=
  (files.filterMap (fun p => (analyze p).toOption)).insertionSort reportScoreGE

/-- Model of `ImpactAnalyzer.compare_impact` over a concrete database, where the pure
embedding of `analyze_file` never raises. -/
def compare_impact (db : GraphDB) (files : List String)
    (max_depth : Nat := 3) : List ImpactReport :=
  compare_impact_f (fun p => Except.ok (analyze_file db p max_depth)) files

/-- A commit record from the JSONL log (`cortex_memory/jsonl.py`); only the
fields used by `PatternDetector.detect_modules` are carried: `f` is the
comma-joined file list, `m` the message, `t` the ISO timestamp. -/
structure CommitRecord where
  f : String
  m : String := ""
  t : String := ""
deriving DecidableEq

/-- Python `[f.strip() for f in commit.f.split(",") if f.strip()]`. -/
def commitFiles (c : CommitRecord) : List String :=
  ((splitChar ',' c.f).map strip).filter (fun s => s ≠ "")

/-- Python `modules[key].append(file)` on a `defaultdict(list)` modelled as an
insertion-ordered association list. -/
def appendGroup (modules : List (String × List String)) (key file : String) :
    List (String × List String) :=
  if modules.any (fun kv => kv.1 == key) then
    modules.map (fun kv => if kv.1 == key then (kv.1, kv.2 ++ [file]) else kv)
  else modules ++ [(key, [file])]

/-- The body of the grouping loop of `detect_modules`: a file is grouped
under its first path segment only when `len(filepath.split("/")) > 1`. -/
def moduleStep (modules : List (String × List String)) (fp : String) :
    List (String × List String) :=
  let parts := splitChar '/' fp
  if parts.length > 1 then appendGroup modules (parts.headD "") fp else modules

/-- The grouping loop of `detect_modules` over all commits' file lists. -/
def collectModules (commits : List CommitRecord) :
    List (String × List String) :=
  commits.foldl (fun acc c => (commitFiles c).foldl moduleStep acc) []

/-- One entry of the `detect_modules` report; the float `activity` is
modelled exactly in `ℚ`. -/
structure ModuleStats where
  module : String
  files : Nat
  changes : Nat
  activity : ℚ
deriving DecidableEq

/-- Module ordering of `detect_modules`: `sort(key=lambda x: x["changes"],
reverse=True)`, a stable descending sort. -/
def moduleChangesGE (m1 m2 : ModuleStats) : Prop := m2.changes ≤ m1.changes

instance : DecidableRel moduleChangesGE := fun m1 m2 => by
  unfold moduleChangesGE; infer_instance

instance : IsTotal ModuleStats moduleChangesGE :=
  ⟨fun a b => (le_total a.changes b.changes).symm⟩

instance : IsTrans ModuleStats moduleChangesGE :=
  ⟨fun _ _ _ h1 h2 => le_trans h2 h1⟩

/-- The stats entry built for one module group. -/
def mkModuleStats (commits : List CommitRecord) (kv : String × List String) :
    ModuleStats :=
  ⟨kv.1, kv.2.dedup.length, kv.2.length,
    if commits.length ≠ 0 then (kv.2.length : ℚ) / commits.length else 0⟩

/-- Model of `PatternDetector.detect_modules`: returns `[]` when no graph was
supplied (`if not self.graph: return []`); otherwise groups every file with
more than one path segment under its first segment, builds per-module
stats, and stably sorts them by touch count descending. The graph's
contents are never read. -/
def detect_modules (commits : List CommitRecord) (graph : Option GraphDB) :
    List ModuleStats :=
  match graph with
  | none => []
  | some _ =>
    ((collectModules commits).map (mkModuleStats commits)).insertionSort
      moduleChangesGE

/-! ## Theorems for the frozen claims -/

/-- The four-node imports chain of P5: `dependents(A) = [B]`,
`dependents(B) = [C]`, `dependents(C) = [D]` (an edge `x → y : imports`
makes `x` a dependent of `y`). -/
def chainDB : GraphDB :=
  add_edge (add_edge (add_edge emptyDB "B" "A" "imports" 1 none "t")
    "C" "B" "imports" 1 none "t") "D" "C" "imports" 1 none "t"

/-- C2: with `maxDepth = 2` on the chain A←B←C←D,
`_get_transitive_dependents` stops strictly before depth 2 (the result is
exactly `{B}`, so C is excluded), while `get_blast_radius` visits depth 2
(its layers are `{1: [B], 2: [C]}`, so C is in `layers[2]`). -/
theorem C2_depth_boundary_asymmetry :
    _get_transitive_dependents chainDB "A" 2 = {"B"} ∧
    "C" ∉ _get_transitive_dependents chainDB "A" 2 ∧
    (get_blast_radius chainDB "A" 2).layers = [(1, ["B"]), (2, ["C"])] ∧
    "C" ∈ ((((get_blast_radius chainDB "A" 2).layers.find?
      (fun kv => kv.1 == 2)).map Prod.snd).getD []) := by
  have hA : get_dependents chainDB "A" = ["B"] := by decide
  have hB : get_dependents chainDB "B" = ["C"] := by decide
  have hC : get_dependents chainDB "C" = ["D"] := by decide
  have h1 : _get_transitive_dependents chainDB "A" 2 = {"B"} := by
    simp [_get_transitive_dependents, transAux, hA, hB, hC]
    decide
  have h2 : (get_blast_radius chainDB "A" 2).layers = [(1, ["B"]), (2, ["C"])] := by
    simp [get_blast_radius, blastAux, hA, hB, hC, addToLayer]
  exact ⟨h1, by rw [h1]; decide, h2, by rw [h2]; decide⟩

/-- C3: for every database, path and depth, `analyze_file` reports
`score = 10*|direct| + 3*|transitive| + |coChanged|`, classifies
`high`/`medium`/`low` by the 50 and 20 thresholds, counts the full
transitive set, and lists `transitive \ direct` as the reported transitive
files. -/
theorem C3_analyze_file_report (db : GraphDB) (p : String) (d : Nat) :
    (analyze_file db p d).impact_score =
      (get_dependents db p).length * 10 +
        (_get_transitive_dependents db p d).card * 3 +
        (get_frequently_changed_together db p 10).length ∧
    ((analyze_file db p d).impact_level = "high" ↔
      50 < (analyze_file db p d).impact_score) ∧
    ((analyze_file db p d).impact_level = "medium" ↔
      (20 < (analyze_file db p d).impact_score ∧
        (analyze_file db p d).impact_score ≤ 50)) ∧
    ((analyze_file db p d).impact_level = "low" ↔
      (analyze_file db p d).impact_score ≤ 20) ∧
    (analyze_file db p d).direct_dependents = (get_dependents db p).length ∧
    (analyze_file db p d).transitive_dependents =
      (_get_transitive_dependents db p d).card ∧
    (analyze_file db p d).co_changed_files =
      (get_frequently_changed_together db p 10).length ∧
    (analyze_file db p d).affected_files.direct = get_dependents db p ∧
    (analyze_file db p d).affected_files.transitive =
      _get_transitive_dependents db p d \ (get_dependents db p).toFinset ∧
    (analyze_file db p d).affected_files.co_changed =
      (get_frequently_changed_together db p 10).map (·.path) := by
  simp only [analyze_file]
  split_ifs with h1 h2 <;> simp_all <;> omega

/-- The two-node imports cycle: A and B each import the other, so each is
the other's dependent and BFS re-encounters visited nodes. -/
def cycleDB : GraphDB :=
  add_edge (add_edge emptyDB "A" "B" "imports" 1 none "t")
    "B" "A" "imports" 1 none "t"

/-- C9: both traversals are total functions of the graph state (in
particular the start node is always discarded from the transitive result,
and the blast-radius total always equals the sum of its layer sizes, for
every graph including cyclic ones), and on the mutual-imports cycle A↔B
they terminate with the expected values. -/
theorem C9_bfs_termination :
    (∀ (db : GraphDB) (p : String) (d : Nat),
      p ∉ _get_transitive_dependents db p d) ∧
    (∀ (db : GraphDB) (p : String) (d : Nat),
      (get_blast_radius db p d).total_affected =
        (((get_blast_radius db p d).layers.map (fun kv => kv.2.length)).sum)) ∧
    _get_transitive_dependents cycleDB "A" 3 = {"B"} ∧
    _get_transitive_dependents cycleDB "B" 3 = {"A"} ∧
    (get_blast_radius cycleDB "A" 3).layers = [(1, ["B"])] := by
  have hA : get_dependents cycleDB "A" = ["B"] := by decide
  have hB : get_dependents cycleDB "B" = ["A"] := by decide
  refine ⟨fun db p d => Finset.not_mem_erase p _, fun db p d => rfl, ?_, ?_, ?_⟩
  · simp [_get_transitive_dependents, transAux, hA, hB]
    decide
  · simp [_get_transitive_dependents, transAux, hA, hB]
    decide
  · simp [get_blast_radius, blastAux, hA, hB, addToLayer]

lemma transAux_of_all_deep {db : GraphDB} {max_depth : Nat} :
    ∀ (queue : List (String × Nat)) (visited : Finset String),
      (∀ e ∈ queue, max_depth ≤ e.2) →
      transAux db max_depth queue visited = visited := by
  intro queue
  induction queue with
  | nil => intro visited _; simp [transAux]
  | cons e rest ih =>
    intro visited hdeep
    obtain ⟨current, depth⟩ := e
    have hd : depth ≥ max_depth := hdeep _ (List.mem_cons_self _ _)
    simp only [transAux, if_pos hd]
    exact ih visited (fun e he => hdeep e (List.mem_cons_of_mem _ he))

/-- C10: for `maxDepth ≤ 1` the transitive-dependents BFS returns the empty
set (the seed is discarded at 0; at 1 every direct dependent is popped at
depth 1 and discarded), so `analyze_file` reports a transitive count of 0
and a score of `10*|direct| + |coChanged|`. -/
theorem C10_shallow_depth_empty (db : GraphDB) (p : String) (d : Nat)
    (hd : d ≤ 1) :
    _get_transitive_dependents db p d = ∅ ∧
    (analyze_file db p d).transitive_dependents = 0 ∧
    (analyze_file db p d).impact_score =
      (get_dependents db p).length * 10 +
        (get_frequently_changed_together db p 10).length := by
  have hempty : _get_transitive_dependents db p d = ∅ := by
    rw [_get_transitive_dependents]
    match d, hd with
    | 0, _ =>
      rw [transAux_of_all_deep _ _ (by simp)]
      simp
    | 1, _ =>
      have h0 : ¬((0 : Nat) ≥ 1) := by omega
      have hnm : p ∉ (∅ : Finset String) := Finset.not_mem_empty p
      simp only [transAux, if_neg h0, if_neg hnm]
      rw [transAux_of_all_deep _ _ ?_]
      · simp
      · intro e he
        simp only [List.nil_append, List.mem_map] at he
        obtain ⟨x, _, rfl⟩ := he
        simp
  refine ⟨hempty, ?_, ?_⟩ <;>
    simp [analyze_file, _get_transitive_dependents] at hempty ⊢ <;>
    rw [hempty] <;> simp

/-- Closed instance of C10: on a graph where A has the direct dependent B,
`maxDepth = 1` still yields no transitive dependents and the reduced score. -/
theorem C10_shallow_depth_empty_witness :
    (1 : Nat) ≤ 1 ∧
    get_dependents (add_edge emptyDB "B" "A" "imports" 1 none "t") "A" = ["B"] ∧
    _get_transitive_dependents (add_edge emptyDB "B" "A" "imports" 1 none "t") "A" 1 = ∅ ∧
    (analyze_file (add_edge emptyDB "B" "A" "imports" 1 none "t") "A" 1).impact_score = 10 := by
  refine ⟨le_refl 1, by decide, (C10_shallow_depth_empty _ "A" 1 (le_refl 1)).1, ?_⟩
  have h := (C10_shallow_depth_empty (add_edge emptyDB "B" "A" "imports" 1 none "t") "A" 1 (le_refl 1)).2.2
  rw [h]
  decide

/-- C1: upserting the same ordered triple `(a, b, r)` twice (weights `w1`
then `w2`) leaves exactly one edge row; its weight is `w1 + w2`, its
metadata is `COALESCE(m2, m1)` (replaced only when the second call's
metadata is non-null), its `created_at` is the first call's timestamp, and
its endpoints resolve to the paths `a` and `b`. -/
theorem C1_edge_upsert_accumulates (a b r : String) (w1 w2 : Int)
    (m1 m2 : Option String) (t1 t2 : String) :
    (add_edge (add_edge emptyDB a b r w1 m1 t1) a b r w2 m2 t2).edges.length = 1 ∧
    (add_edge (add_edge emptyDB a b r w1 m1 t1) a b r w2 m2 t2).edges.map
      (fun e => (e.weight, e.metadata, e.createdAt, e.relationship)) =
      [(w1 + w2, m2 <|> m1, t1, r)] ∧
    (add_edge (add_edge emptyDB a b r w1 m1 t1) a b r w2 m2 t2).edges.map
      (fun e =>
        ((findFileById (add_edge (add_edge emptyDB a b r w1 m1 t1) a b r w2 m2 t2)
            e.fromId).map (·.path),
         (findFileById (add_edge (add_edge emptyDB a b r w1 m1 t1) a b r w2 m2 t2)
            e.toId).map (·.path))) = [(some a, some b)] := by
  by_cases hab : a = b
  · subst hab
    refine ⟨?_, ?_, ?_⟩ <;>
      simp [add_edge, add_file, emptyDB, findFile, findFileById, edgeKeyMatches]
  · have hba : ¬ b = a := fun h => hab h.symm
    refine ⟨?_, ?_, ?_⟩ <;>
      simp [add_edge, add_file, emptyDB, findFile, findFileById, edgeKeyMatches,
        hab, hba]

/-- Schema invariants of the files table enforced by SQLite: `path` is
UNIQUE and `id` is the primary key. -/
def WellFormedDB (db : GraphDB) : Prop :=
  (db.files.map FileRow.path).Nodup ∧ (db.files.map FileRow.id).Nodup

instance : DecidablePred WellFormedDB := fun db => by
  unfold WellFormedDB; infer_instance

lemma mem_get_dependents_iff {db : GraphDB} {p x : String}
    (hwf : WellFormedDB db) :
    x ∈ get_dependents db p ↔
      ∃ e ∈ db.edges, e.relationship = "imports" ∧
        (∃ f ∈ db.files, f.path = p ∧ e.toId = f.id) ∧
        (∃ g ∈ db.files, g.path = x ∧ e.fromId = g.id) := by
  constructor
  · intro hx
    rw [get_dependents, List.mem_filterMap] at hx
    obtain ⟨e, he, hmap⟩ := hx
    rw [dependentEdges] at he
    cases hfind : findFile db p with
    | none => rw [hfind] at he; simp at he
    | some f =>
      rw [hfind] at he
      rw [List.mem_insertionSort, List.mem_filter] at he
      obtain ⟨hee, hpred⟩ := he
      rw [Bool.and_eq_true, beq_iff_eq, beq_iff_eq] at hpred
      have hf_mem : f ∈ db.files := List.mem_of_find?_eq_some hfind
      have hf_path : f.path = p := by
        have := List.find?_some hfind; simpa using this
      rw [Option.map_eq_some'] at hmap
      obtain ⟨g, hg, hgx⟩ := hmap
      have hg_mem : g ∈ db.files := List.mem_of_find?_eq_some hg
      have hg_id : g.id = e.fromId := by
        have := List.find?_some hg; simpa using this
      exact ⟨e, hee, hpred.2, ⟨f, hf_mem, hf_path, hpred.1⟩,
        ⟨g, hg_mem, hgx, hg_id.symm⟩⟩
  · rintro ⟨e, he, hrel, ⟨f, hf, hfp, hft⟩, ⟨g, hg, hgx, hgf⟩⟩
    rw [get_dependents, List.mem_filterMap]
    have hsome : (findFile db p).isSome := by
      rw [findFile, List.find?_isSome]
      exact ⟨f, hf, by simpa using hfp⟩
    obtain ⟨f', hf'⟩ := Option.isSome_iff_exists.mp hsome
    have hf'_mem : f' ∈ db.files := List.mem_of_find?_eq_some hf'
    have hf'_path : f'.path = p := by
      have := List.find?_some hf'; simpa using this
    have hff : f = f' :=
      List.inj_on_of_nodup_map hwf.1 hf hf'_mem (by rw [hfp, hf'_path])
    refine ⟨e, ?_, ?_⟩
    · rw [dependentEdges, hf', List.mem_insertionSort, List.mem_filter]
      refine ⟨he, ?_⟩
      rw [Bool.and_eq_true, beq_iff_eq, beq_iff_eq]
      exact ⟨by rw [hft, hff], hrel⟩
    · have hgsome : (findFileById db e.fromId).isSome := by
        rw [findFileById, List.find?_isSome]
        exact ⟨g, hg, by simpa using hgf.symm⟩
      obtain ⟨g', hg'⟩ := Option.isSome_iff_exists.mp hgsome
      have hg'_mem : g' ∈ db.files := List.mem_of_find?_eq_some hg'
      have hg'_id : g'.id = e.fromId := by
        have := List.find?_some hg'; simpa using this
      have hgg : g = g' :=
        List.inj_on_of_nodup_map hwf.2 hg hg'_mem (by rw [hg'_id, hgf])
      rw [hg', Option.map_eq_some']
      exact ⟨g', rfl, by rw [← hgg, hgx]⟩

/-- C4: after a single `upsertEdge(a, b, "imports")` on a fresh store
(`a ≠ b`), `dependents(b) = [a]` and `dependents(a) = []`; in general the
dependents query returns exactly the paths having an `imports` edge into
the queried file (on a well-formed database), from a weight-descending
edge list. -/
theorem C4_dependents_directional :
    (∀ (a b t : String), a ≠ b →
      get_dependents (add_edge emptyDB a b "imports" 1 none t) b = [a] ∧
      get_dependents (add_edge emptyDB a b "imports" 1 none t) a = []) ∧
    (∀ (db : GraphDB) (p : String),
      (dependentEdges db p).Sorted edgeWeightGE ∧
      get_dependents db p = (dependentEdges db p).filterMap
        (fun e => (findFileById db e.fromId).map (·.path))) ∧
    (∀ (db : GraphDB) (p x : String), WellFormedDB db →
      (x ∈ get_dependents db p ↔
        ∃ e ∈ db.edges, e.relationship = "imports" ∧
          (∃ f ∈ db.files, f.path = p ∧ e.toId = f.id) ∧
          (∃ g ∈ db.files, g.path = x ∧ e.fromId = g.id))) := by
  refine ⟨fun a b t hab => ?_, fun db p => ⟨?_, rfl⟩,
    fun db p x hwf => mem_get_dependents_iff hwf⟩
  · have hba : ¬ b = a := fun h => hab h.symm
    constructor <;>
      simp [get_dependents, dependentEdges, add_edge, add_file, emptyDB,
        findFile, findFileById, edgeKeyMatches, hab, hba]
  · rw [dependentEdges]
    cases findFile db p with
    | none => exact List.sorted_nil
    | some f => exact List.sorted_insertionSort edgeWeightGE _

/-- Closed instance of C4 at `a = "a"`, `b = "b"`: the directional facts
and the membership characterisation on the resulting two-node store. -/
theorem C4_dependents_directional_witness :
    get_dependents (add_edge emptyDB "a" "b" "imports" 1 none "t") "b" = ["a"] ∧
    get_dependents (add_edge emptyDB "a" "b" "imports" 1 none "t") "a" = [] ∧
    ("a" ∈ get_dependents (add_edge emptyDB "a" "b" "imports" 1 none "t") "b" ↔
      ∃ e ∈ (add_edge emptyDB "a" "b" "imports" 1 none "t").edges,
        e.relationship = "imports" ∧
        (∃ f ∈ (add_edge emptyDB "a" "b" "imports" 1 none "t").files,
          f.path = "b" ∧ e.toId = f.id) ∧
        (∃ g ∈ (add_edge emptyDB "a" "b" "imports" 1 none "t").files,
          g.path = "a" ∧ e.fromId = g.id)) :=
  ⟨(C4_dependents_directional.1 "a" "b" "t" (by decide)).1,
   (C4_dependents_directional.1 "a" "b" "t" (by decide)).2,
   C4_dependents_directional.2.2 _ "b" "a" (by decide)⟩

lemma relatedRowOfEdge_eq_some {db : GraphDB} {fid : Nat} {e : EdgeRow}
    {r : RelatedRow} (h : relatedRowOfEdge db fid e = some r) :
    (e.fromId = fid ∨ e.toId = fid) ∧ r.relationship = e.relationship ∧
      r.weight = e.weight ∧ r.metadata = e.metadata := by
  rw [relatedRowOfEdge] at h
  split_ifs at h with h1 h2
  · rw [Option.map_eq_some'] at h
    obtain ⟨g, _, rfl⟩ := h
    exact ⟨Or.inl (by simpa using h1), rfl, rfl, rfl⟩
  · rw [Option.map_eq_some'] at h
    obtain ⟨g, _, rfl⟩ := h
    exact ⟨Or.inr (by simpa using h2), rfl, rfl, rfl⟩

/-- C5: `relatedFiles` returns `[]` for an unknown path, its rows are
weight-descending, restricted to the given relationship, and each row comes
from an edge with the queried file as either endpoint; `dependencies` is
exactly the path projection of `relatedFiles(path, "imports")`, and is
therefore bidirectional: after `upsertEdge(a, b, "imports")` both
`dependencies(b) = [a]` and `dependencies(a) = [b]`. -/
theorem C5_related_files_bidirectional :
    (∀ (db : GraphDB) (p : String) (rel : Option String) (lim : Nat),
      p ∉ filePaths db → get_related_files db p rel lim = []) ∧
    (∀ (db : GraphDB) (p : String) (rel : Option String) (lim : Nat),
      (get_related_files db p rel lim).Sorted rowWeightGE) ∧
    (∀ (db : GraphDB) (p rv : String) (lim : Nat) (r : RelatedRow),
      r ∈ get_related_files db p (some rv) lim → r.relationship = rv) ∧
    (∀ (db : GraphDB) (p : String) (rel : Option String) (lim : Nat)
      (r : RelatedRow), r ∈ get_related_files db p rel lim →
      ∃ f, findFile db p = some f ∧ ∃ e ∈ db.edges,
        (e.fromId = f.id ∨ e.toId = f.id) ∧
        relatedRowOfEdge db f.id e = some r) ∧
    (∀ (db : GraphDB) (p : String), get_dependencies db p =
      (get_related_files db p (some "imports") 20).map (·.path)) ∧
    (∀ (a b t : String), a ≠ b →
      get_dependencies (add_edge emptyDB a b "imports" 1 none t) b = [a] ∧
      get_dependencies (add_edge emptyDB a b "imports" 1 none t) a = [b]) := by
  refine ⟨?_, ?_, ?_, ?_, fun db p => rfl, ?_⟩
  · intro db p rel lim h
    rw [get_related_files, findFile_eq_none_of_not_mem h]
  · intro db p rel lim
    rw [get_related_files]
    cases findFile db p with
    | none => exact List.sorted_nil
    | some f =>
      exact ((List.sorted_insertionSort rowWeightGE _).sublist
        (List.take_sublist _ _))
  · intro db p rv lim r hr
    rw [get_related_files] at hr
    cases hfind : findFile db p with
    | none => rw [hfind] at hr; simp at hr
    | some f =>
      rw [hfind] at hr
      have hr' := List.mem_of_mem_take hr
      rw [List.mem_insertionSort, relatedRows, List.mem_filterMap] at hr'
      obtain ⟨e, he, hmapped⟩ := hr'
      simp only at hmapped
      split_ifs at hmapped with hcond
      have := (relatedRowOfEdge_eq_some hmapped).2.1
      rw [this]
      simpa using hcond
  · intro db p rel lim r hr
    rw [get_related_files] at hr
    cases hfind : findFile db p with
    | none => rw [hfind] at hr; simp at hr
    | some f =>
      rw [hfind] at hr
      have hr' := List.mem_of_mem_take hr
      rw [List.mem_insertionSort, relatedRows, List.mem_filterMap] at hr'
      obtain ⟨e, he, hmapped⟩ := hr'
      refine ⟨f, rfl, e, he, ?_⟩
      cases rel with
      | none =>
        exact ⟨(relatedRowOfEdge_eq_some hmapped).1, hmapped⟩
      | some rv =>
        simp only at hmapped
        split_ifs at hmapped with hcond
        exact ⟨(relatedRowOfEdge_eq_some hmapped).1, hmapped⟩
  · intro a b t hab
    have hba : ¬ b = a := fun h => hab h.symm
    constructor <;>
      simp [get_dependencies, get_related_files, relatedRows, relatedRowOfEdge,
        add_edge, add_file, emptyDB, findFile, findFileById, edgeKeyMatches,
        hab, hba]

/-- Closed instance of C5: empty-result on an unknown path, the
relationship restriction and endpoint provenance of a concrete row, and
the bidirectional `dependencies` results after one imports edge. -/
theorem C5_related_files_bidirectional_witness :
    get_related_files emptyDB "q" none 20 = [] ∧
    ((⟨"a", "imports", 1, none⟩ : RelatedRow) ∈
        get_related_files (add_edge emptyDB "a" "b" "imports" 1 none "t") "b"
          (some "imports") 20 →
      (⟨"a", "imports", 1, none⟩ : RelatedRow).relationship = "imports") ∧
    get_dependencies (add_edge emptyDB "a" "b" "imports" 1 none "t") "b" = ["a"] ∧
    get_dependencies (add_edge emptyDB "a" "b" "imports" 1 none "t") "a" = ["b"] :=
  ⟨C5_related_files_bidirectional.1 emptyDB "q" none 20 (by decide),
   C5_related_files_bidirectional.2.2.1 _ "b" "imports" 20 _,
   (C5_related_files_bidirectional.2.2.2.2.2 "a" "b" "t" (by decide)).1,
   (C5_related_files_bidirectional.2.2.2.2.2 "a" "b" "t" (by decide)).2⟩

lemma find?_map_of_pred_invariant {α : Type} (u : α → α) (q : α → Bool)
    (hu : ∀ x, q (u x) = q x) :
    ∀ (l : List α), (l.map u).find? q = (l.find? q).map u := by
  intro l
  induction l with
  | nil => simp
  | cons x xs ih =>
    simp only [List.map_cons, List.find?_cons, hu x]
    cases hq : q x with
    | true => rfl
    | false => exact ih

/-- Counterexample to C6 as stated: re-registering path `p` (stored type
`"a"`, non-null) with the non-null type `"b"` replaces the stored type,
which becomes `"b"`, not the original `"a"`. -/
theorem C6_counterexample :
    ((add_file (add_file emptyDB "p" (some "a") "t1").1 "p" (some "b")
        "t2").1.files.map FileRow.type) = [some "b"] ∧
    ((add_file (add_file emptyDB "p" (some "a") "t1").1 "p" (some "b")
        "t2").1.files.map FileRow.type) ≠ [some "a"] := by
  constructor <;> decide

/-- C6 (amended): re-registering an already-present path returns the
existing node id, updates `lastSeen` to the new timestamp, never removes a
node (the path column is unchanged), and sets the stored type to
`COALESCE(newType, oldType)`: the new type wins whenever it is non-null,
and a null new type keeps the stored one. -/
theorem C6_upsert_file_policy (db : GraphDB) (p : String)
    (file_type : Option String) (now : String) (f : FileRow)
    (hfind : findFile db p = some f) :
    (add_file db p file_type now).2 = f.id ∧
    (add_file db p file_type now).1.files.map FileRow.path =
      db.files.map FileRow.path ∧
    findFile (add_file db p file_type now).1 p =
      some { f with lastSeen := now, type := file_type <|> f.type } := by
  have hq : ∀ x : FileRow,
      (((fun g => if g.path == p then
          { g with lastSeen := now, type := file_type <|> g.type }
        else g) x).path == p) = (x.path == p) := by
    intro x
    by_cases hx : x.path = p <;> simp [hx]
  have hfiles : (add_file db p file_type now).1.files =
      db.files.map (fun g => if g.path == p then
        { g with lastSeen := now, type := file_type <|> g.type } else g) := by
    rw [add_file]
    simp only [hfind]
  have hmap : findFile (add_file db p file_type now).1 p =
      some { f with lastSeen := now, type := file_type <|> f.type } := by
    rw [findFile, hfiles, find?_map_of_pred_invariant _ _ hq db.files]
    rw [findFile] at hfind
    rw [hfind, Option.map_some']
    have hfp : (f.path == p) = true := by
      have := List.find?_some hfind
      simpa using this
    simp [hfp]
  refine ⟨?_, ?_, hmap⟩
  · have hproj : (add_file db p file_type now).2 =
        ((findFile (add_file db p file_type now).1 p).map (·.id)).getD 0 := rfl
    rw [hproj, hmap]
    rfl
  · rw [hfiles, List.map_map]
    apply List.map_congr_left
    intro x _
    by_cases hx : x.path = p <;> simp [hx]

/-- Closed instance of C6 (amended): re-registering `"p"` (stored type
`"a"`) with type `"b"` keeps the node, returns its id, refreshes
`lastSeen` and stores type `"b"`. -/
theorem C6_upsert_file_policy_witness :
    (add_file (add_file emptyDB "p" (some "a") "t1").1 "p" (some "b") "t2").2 =
      1 ∧
    findFile (add_file (add_file emptyDB "p" (some "a") "t1").1 "p" (some "b")
        "t2").1 "p" = some ⟨1, "p", some "b", "t2"⟩ := by
  have h := C6_upsert_file_policy (add_file emptyDB "p" (some "a") "t1").1 "p"
    (some "b") "t2" ⟨1, "p", some "a", "t1"⟩ (by decide)
  exact ⟨h.1, h.2.2⟩

/-- C8: `compare_impact` is total over an `Except`-valued per-path
analysis: the result is a permutation of the reports of exactly the
successfully analysed paths (failures are skipped), sorted by impact score
descending, and paths of equal score keep their input order (the sort is
stable: filtering the output to any fixed score equals filtering the
successes in input order). -/
theorem C8_compare_impact_policy
    (analyze : String → Except String ImpactReport) (files : List String) :
    (compare_impact_f analyze files).Perm
      (files.filterMap (fun p => (analyze p).toOption)) ∧
    (compare_impact_f analyze files).Sorted reportScoreGE ∧
    ∀ (s : Nat), (compare_impact_f analyze files).filter
        (fun r => r.impact_score == s) =
      (files.filterMap (fun p => (analyze p).toOption)).filter
        (fun r => r.impact_score == s) := by
  refine ⟨List.perm_insertionSort reportScoreGE _,
    List.sorted_insertionSort reportScoreGE _, fun s => ?_⟩
  set l := files.filterMap (fun p => (analyze p).toOption) with hl
  have hpair : (l.filter (fun r => r.impact_score == s)).Pairwise
      reportScoreGE := by
    apply List.pairwise_of_forall_mem_list
    intro a ha b hb
    have has : a.impact_score = s := by
      simpa using (List.mem_filter.mp ha).2
    have hbs : b.impact_score = s := by
      simpa using (List.mem_filter.mp hb).2
    rw [reportScoreGE, has, hbs]
  have hsub : List.Sublist (l.filter (fun r => r.impact_score == s))
      (compare_impact_f analyze files) :=
    List.sublist_insertionSort hpair (List.filter_sublist l)
  have hsubf : List.Sublist (l.filter (fun r => r.impact_score == s))
      ((compare_impact_f analyze files).filter (fun r => r.impact_score == s)) := by
    have h := hsub.filter (fun r => r.impact_score == s)
    rwa [List.filter_eq_self.mpr
      (fun a ha => (List.mem_filter.mp ha).2)] at h
  have hperm : ((compare_impact_f analyze files).filter
      (fun r => r.impact_score == s)).Perm
        (l.filter (fun r => r.impact_score == s)) :=
    (List.perm_insertionSort reportScoreGE l).filter _
  exact (hsubf.eq_of_length hperm.length_eq.symm).symm

/-- Does file `fp` belong to module `k`: more than one path segment and
first segment `k`. This is the theorem-side restatement of the grouping
condition of `detect_modules`, used to characterise its output. -/
def belongsTo (k fp : String) : Bool :=
  decide (1 < (splitChar '/' fp).length) && ((splitChar '/' fp).headD "" == k)

/-- The touch list of module `k`: all files, across all commits' parsed
file lists in order, that belong to module `k`. -/
def moduleTouchesSpec (commits : List CommitRecord) (k : String) :
    List String :=
  ((commits.map commitFiles).flatten).filter (belongsTo k)

/-- Invariant of the grouping fold of `detect_modules` after consuming the
file list `fps`: every group holds exactly the touches of its module so
far, and absent keys have no touches so far. -/
def ModInv (fps : List String) (acc : List (String × List String)) : Prop :=
  (∀ kv ∈ acc, kv.2 = fps.filter (belongsTo kv.1)) ∧
  (∀ k : String, (∀ kv ∈ acc, kv.1 ≠ k) → fps.filter (belongsTo k) = [])

lemma belongsTo_eq_of_long {fp : String}
    (hlen : 1 < (splitChar '/' fp).length) (k : String) :
    belongsTo k fp = ((splitChar '/' fp).headD "" == k) := by
  simp [belongsTo, hlen]

lemma belongsTo_eq_false_of_short {fp : String}
    (hlen : ¬ 1 < (splitChar '/' fp).length) (k : String) :
    belongsTo k fp = false := by
  simp [belongsTo, hlen]

lemma modInv_step {fps : List String} {acc : List (String × List String)}
    (h : ModInv fps acc) (fp : String) :
    ModInv (fps ++ [fp]) (moduleStep acc fp) := by
  rw [moduleStep]
  by_cases hlen : 1 < (splitChar '/' fp).length
  case neg =>
    rw [if_neg (by simpa using hlen)]
    constructor
    · intro kv hkv
      rw [List.filter_append, h.1 kv hkv]
      simp [belongsTo_eq_false_of_short hlen]
    · intro k hk
      rw [List.filter_append, h.2 k hk]
      simp [belongsTo_eq_false_of_short hlen]
  case pos =>
    rw [if_pos (by simpa using hlen)]
    set h0 := (splitChar '/' fp).headD "" with hh0
    rw [appendGroup]
    by_cases hany : acc.any (fun kv => kv.1 == h0)
    case pos =>
      rw [if_pos hany]
      constructor
      · intro kv' hkv'
        rw [List.mem_map] at hkv'
        obtain ⟨kv, hkv, rfl⟩ := hkv'
        by_cases hk : kv.1 == h0
        · rw [if_pos hk]
          simp only
          rw [List.filter_append, ← h.1 kv hkv]
          have hb : belongsTo kv.1 fp = true := by
            rw [belongsTo_eq_of_long hlen, ← hh0, beq_iff_eq]
            rw [beq_iff_eq] at hk
            exact hk.symm
          simp [hb]
        · rw [if_neg hk]
          rw [List.filter_append, ← h.1 kv hkv]
          have hb : belongsTo kv.1 fp = false := by
            rw [belongsTo_eq_of_long hlen, ← hh0, beq_eq_false_iff_ne]
            intro heq
            exact hk (by rw [beq_iff_eq]; exact heq.symm)
          simp [hb]
      · intro k hk
        have hacc : ∀ kv ∈ acc, kv.1 ≠ k := by
          intro kv hkv
          have hfst : (if kv.1 == h0 then (kv.1, kv.2 ++ [fp]) else kv).1 =
              kv.1 := by
            by_cases hc : kv.1 == h0 <;> simp [hc]
          have hmem := List.mem_map_of_mem
            (fun kv => if kv.1 == h0 then (kv.1, kv.2 ++ [fp]) else kv) hkv
          have := hk _ hmem
          rwa [hfst] at this
        obtain ⟨kv0, hkv0, hkv0h⟩ := List.any_eq_true.mp hany
        have hkh : h0 ≠ k := by
          rw [beq_iff_eq] at hkv0h
          rw [← hkv0h]
          exact hacc kv0 hkv0
        rw [List.filter_append, h.2 k hacc]
        have hb : belongsTo k fp = false := by
          rw [belongsTo_eq_of_long hlen, ← hh0, beq_eq_false_iff_ne]
          exact hkh
        simp [hb]
    case neg =>
      rw [if_neg hany]
      have hnone : ∀ kv ∈ acc, kv.1 ≠ h0 := by
        intro kv hkv heq
        exact hany (List.any_eq_true.mpr ⟨kv, hkv, by rw [beq_iff_eq]; exact heq⟩)
      constructor
      · intro kv hkv
        rw [List.mem_append] at hkv
        rcases hkv with hkv | hkv
        · rw [List.filter_append, ← h.1 kv hkv]
          have hb : belongsTo kv.1 fp = false := by
            rw [belongsTo_eq_of_long hlen, ← hh0, beq_eq_false_iff_ne]
            exact fun heq => hnone kv hkv heq.symm
          simp [hb]
        · rw [List.mem_singleton] at hkv
          subst hkv
          simp only
          rw [List.filter_append, h.2 h0 hnone]
          have hb : belongsTo h0 fp = true := by
            rw [belongsTo_eq_of_long hlen, ← hh0]
            simp
          simp [hb]
      · intro k hk
        have hacc : ∀ kv ∈ acc, kv.1 ≠ k :=
          fun kv hkv => hk kv (List.mem_append_left _ hkv)
        have hkh : h0 ≠ k :=
          hk (h0, [fp]) (List.mem_append_right _ (List.mem_singleton_self _))
        rw [List.filter_append, h.2 k hacc]
        have hb : belongsTo k fp = false := by
          rw [belongsTo_eq_of_long hlen, ← hh0, beq_eq_false_iff_ne]
          exact hkh
        simp [hb]

lemma modInv_foldl :
    ∀ (l fps : List String) (acc : List (String × List String)),
      ModInv fps acc → ModInv (fps ++ l) (l.foldl moduleStep acc) := by
  intro l
  induction l with
  | nil => intro fps acc h; simpa using h
  | cons fp rest ih =>
    intro fps acc h
    have h' := modInv_step h fp
    have h2 := ih (fps ++ [fp]) (moduleStep acc fp) h'
    simpa using h2

lemma collectModules_eq (commits : List CommitRecord) :
    collectModules commits =
      ((commits.map commitFiles).flatten).foldl moduleStep [] := by
  rw [collectModules]
  suffices h : ∀ (acc : List (String × List String)),
      commits.foldl (fun a c => (commitFiles c).foldl moduleStep a) acc =
        ((commits.map commitFiles).flatten).foldl moduleStep acc from h []
  induction commits with
  | nil => intro acc; simp
  | cons c cs ih =>
    intro acc
    rw [List.foldl_cons, List.map_cons, List.flatten_cons, List.foldl_append]
    exact ih _

lemma collectModules_inv (commits : List CommitRecord) :
    ModInv ((commits.map commitFiles).flatten) (collectModules commits) := by
  rw [collectModules_eq]
  have hbase : ModInv [] ([] : List (String × List String)) :=
    ⟨by simp, by simp⟩
  have h := modInv_foldl ((commits.map commitFiles).flatten) [] [] hbase
  simpa using h

/-- Counterexample to C7 as stated: the output of `detect_modules` does
depend on whether a graph was supplied — with `None` it is `[]` even for a
non-empty commit batch — and a file without a `/` separator (here
`"top"`) is not grouped under any module at all. -/
theorem C7_counterexample :
    detect_modules [⟨"a/x", "", ""⟩] none = [] ∧
    detect_modules [⟨"a/x", "", ""⟩] (some emptyDB) =
      [⟨"a", 1, 1, 1⟩] ∧
    detect_modules [⟨"a/x", "", ""⟩] none ≠
      detect_modules [⟨"a/x", "", ""⟩] (some emptyDB) ∧
    detect_modules [⟨"top", "", ""⟩] (some emptyDB) = [] := by
  have h1 : commitFiles ⟨"a/x", "", ""⟩ = ["a/x"] := by decide
  have h2 : splitChar '/' "a/x" = ["a", "x"] := by decide
  have h3 : strip "a/x" = "a/x" := by decide
  have heval : detect_modules [⟨"a/x", "", ""⟩] (some emptyDB) =
      [⟨"a", 1, 1, 1⟩] := by
    simp [detect_modules, collectModules, h1, h2, h3, moduleStep, appendGroup,
      mkModuleStats]
  refine ⟨rfl, heval, ?_, by decide⟩
  rw [heval]
  intro hcontra
  exact absurd hcontra (by decide)

/-- C7 (amended): `detect_modules` returns `[]` when no graph is supplied;
otherwise the output is independent of the graph's contents, sorted by
touch count descending, every reported module's counts are the touch count
and unique-file count of its touch list with
`activity = touches / totalCommits` (0 for an empty batch), and every
file with more than one path segment is reported under its first
segment. -/
theorem C7_detect_modules_contract :
    (∀ (commits : List CommitRecord), detect_modules commits none = []) ∧
    (∀ (commits : List CommitRecord) (g1 g2 : GraphDB),
      detect_modules commits (some g1) = detect_modules commits (some g2)) ∧
    (∀ (commits : List CommitRecord) (g : GraphDB),
      (detect_modules commits (some g)).Sorted moduleChangesGE) ∧
    (∀ (commits : List CommitRecord) (g : GraphDB) (s : ModuleStats),
      s ∈ detect_modules commits (some g) →
      s.changes = (moduleTouchesSpec commits s.module).length ∧
      s.files = (moduleTouchesSpec commits s.module).dedup.length ∧
      s.activity = if commits.length ≠ 0 then
        (s.changes : ℚ) / commits.length else 0) ∧
    (∀ (commits : List CommitRecord) (g : GraphDB) (c : CommitRecord)
      (fp : String), c ∈ commits → fp ∈ commitFiles c →
      1 < (splitChar '/' fp).length →
      ∃ s ∈ detect_modules commits (some g),
        s.module = (splitChar '/' fp).headD "") := by
  refine ⟨fun commits => rfl, fun commits g1 g2 => rfl,
    fun commits g => List.sorted_insertionSort moduleChangesGE _,
    ?_, ?_⟩
  · intro commits g s hs
    rw [detect_modules, List.mem_insertionSort, List.mem_map] at hs
    obtain ⟨kv, hkv, rfl⟩ := hs
    have hinv := (collectModules_inv commits).1 kv hkv
    have hmod : (mkModuleStats commits kv).module = kv.1 := rfl
    rw [hmod]
    have htouch : moduleTouchesSpec commits kv.1 = kv.2 := by
      rw [moduleTouchesSpec, ← hinv]
    rw [htouch]
    exact ⟨rfl, rfl, rfl⟩
  · intro commits g c fp hc hfp hlen
    have hmem : fp ∈ (commits.map commitFiles).flatten :=
      List.mem_flatten.mpr ⟨commitFiles c, List.mem_map_of_mem _ hc, hfp⟩
    have hb : belongsTo ((splitChar '/' fp).headD "") fp = true := by
      rw [belongsTo_eq_of_long hlen]
      simp
    have hne : ((commits.map commitFiles).flatten).filter
        (belongsTo ((splitChar '/' fp).headD "")) ≠ [] := by
      intro hnil
      have : fp ∈ ((commits.map commitFiles).flatten).filter
          (belongsTo ((splitChar '/' fp).headD "")) :=
        List.mem_filter.mpr ⟨hmem, hb⟩
      rw [hnil] at this
      exact absurd this (List.not_mem_nil fp)
    have hkey : ¬ (∀ kv ∈ collectModules commits,
        kv.1 ≠ (splitChar '/' fp).headD "") := by
      intro hall
      exact hne ((collectModules_inv commits).2 _ hall)
    push_neg at hkey
    obtain ⟨kv, hkv, hkveq⟩ := hkey
    refine ⟨mkModuleStats commits kv, ?_, hkveq⟩
    rw [detect_modules, List.mem_insertionSort, List.mem_map]
    exact ⟨kv, hkv, rfl⟩

/-- Closed instance of C7 (amended): for the one-commit batch touching
`"a/x"`, the reported entry for module `"a"` has the stated counts and the
module of `"a/x"` is reported. -/
theorem C7_detect_modules_contract_witness :
    ((⟨"a", 1, 1, 1⟩ : ModuleStats).changes =
      (moduleTouchesSpec [⟨"a/x", "", ""⟩]
        (⟨"a", 1, 1, 1⟩ : ModuleStats).module).length) ∧
    (∃ s ∈ detect_modules [⟨"a/x", "", ""⟩] (some emptyDB),
      s.module = (splitChar '/' "a/x").headD "") := by
  have h1 : commitFiles ⟨"a/x", "", ""⟩ = ["a/x"] := by decide
  have h2 : splitChar '/' "a/x" = ["a", "x"] := by decide
  have h3 : strip "a/x" = "a/x" := by decide
  have heval : detect_modules [⟨"a/x", "", ""⟩] (some emptyDB) =
      [⟨"a", 1, 1, 1⟩] := by
    simp [detect_modules, collectModules, h1, h2, h3, moduleStep, appendGroup,
      mkModuleStats]
  refine ⟨(C7_detect_modules_contract.2.2.2.1 [⟨"a/x", "", ""⟩] emptyDB
      ⟨"a", 1, 1, 1⟩ ?_).1,
    C7_detect_modules_contract.2.2.2.2 [⟨"a/x", "", ""⟩] emptyDB
      ⟨"a/x", "", ""⟩ "a/x" (by decide) (by decide) (by decide)⟩
  rw [heval]
  exact List.mem_singleton_self _
